import Mathlib

/-!
Shallow embedding of the changelog core of this repository:
the token model and renderer from the markdown module (src/unnamed/part_000)
and the Changelog operations from src/tools/expotools/src/Changelogs.ts.

Modelling conventions:
* Machine strings are Lean String values; JS string concatenation, trim,
  trimRight, split, join and repeat are modelled by explicit functions below.
* The lodash unescape used by render replaces the five HTML entities
  amp, lt, gt, quot and numeric 39 in one left-to-right pass; it is modelled
  by the scanner unescapeAux.
* JS whitespace (as relevant to the rendered output, which only contains
  spaces and line feeds) is modelled by Char.isWhitespace.
* The in-place array mutations of the TypeScript code are modelled by pure
  functions returning the updated token list; fallible operations return
  Except. The lazily cached token tree with its backing file is modelled by
  CState, with the external markdown tokenizer abstracted as a parameter
  lexFn of the loading step.
-/

namespace Changelogs

/- Token model from the markdown module: the enum TokenType together with the
token union is modelled as one inductive; list items keep their own type, and
the ListItemToken member of the union is the listItem constructor. -/
mutual
inductive Token where
  | heading (depth : Nat) (text : String) : Token
  | list (depth : Nat) (items : List ListItemToken) (ordered : Bool) : Token
  | listItem (item : ListItemToken) : Token
  | paragraph (text : String) : Token
  | text (text : String) : Token
  | space : Token
  | code (text : String) (lang : String) : Token
inductive ListItemToken where
  | mk (depth : Nat) (text : String) (tokens : List Token) : ListItemToken
end

def ListItemToken.depth : ListItemToken → Nat
  | .mk d _ _ => d

def ListItemToken.text : ListItemToken → String
  | .mk _ t _ => t

def ListItemToken.tokens : ListItemToken → List Token
  | .mk _ _ ts => ts

/-- Discriminator used to separate concrete token lists without deciding full
equality of trees. -/
def tokenKindIdx : Token → Nat
  | .heading _ _ => 0
  | .list _ _ _ => 1
  | .listItem _ => 2
  | .paragraph _ => 3
  | .text _ => 4
  | .space => 5
  | .code _ _ => 6

/-! String helpers modelling the JS primitives. -/

/-- JS String.prototype.repeat. -/
def strRepeat (s : String) : Nat → String
  | 0 => ""
  | n + 1 => s ++ strRepeat s n

/-- JS Array.prototype.join with a separator. -/
def strJoinSep (sep : String) : List String → String
  | [] => ""
  | [x] => x
  | x :: y :: rest => x ++ sep ++ strJoinSep sep (y :: rest)

def trimLeftChars (l : List Char) : List Char :=
  l.dropWhile Char.isWhitespace

def trimRightChars (l : List Char) : List Char :=
  (l.reverse.dropWhile Char.isWhitespace).reverse

/-- JS String.prototype.trimRight / trimEnd. -/
def jsTrimRight (s : String) : String :=
  ⟨trimRightChars s.data⟩

/-- JS String.prototype.trim (both ends). -/
def jsTrim (s : String) : String :=
  ⟨trimRightChars (trimLeftChars s.data)⟩

/-- One entity step of the lodash unescape scanner: recognizes the tail of one
of the five entities amp; lt; gt; quot; or numeric 39 right after an
ampersand, and returns the replacement character and the rest of the input. -/
def entityAt : List Char → Option (Char × List Char)
  | 'a' :: 'm' :: 'p' :: ';' :: rest => some ('&', rest)
  | 'l' :: 't' :: ';' :: rest => some ('<', rest)
  | 'g' :: 't' :: ';' :: rest => some ('>', rest)
  | 'q' :: 'u' :: 'o' :: 't' :: ';' :: rest => some ('"', rest)
  | '#' :: '3' :: '9' :: ';' :: rest => some (Char.ofNat 39, rest)
  | _ => none

/-- Left-to-right single pass of lodash unescape over the characters. -/
def unescapeAux : List Char → List Char
  | [] => []
  | c :: rest =>
    if c = '&' then
      match h : entityAt rest with
      | some (r, rest2) => r :: unescapeAux rest2
      | none => c :: unescapeAux rest
    else c :: unescapeAux rest
termination_by l => l.length
decreasing_by
  · simp only [List.length_cons]
    have : rest2.length < rest.length := by
      unfold entityAt at h
      split at h <;> simp_all <;> omega
    omega
  · simp
  · simp

/-- lodash unescape. -/
def jsUnescape (s : String) : String :=
  ⟨unescapeAux s.data⟩

/-- Rendering context of the markdown renderer: all three fields are optional
in the source. -/
structure RenderingContext where
  indent : Option Nat
  orderedList : Option Bool
  itemIndex : Option Nat

/-- MarkdownRenderer.indent: empty for zero depth, otherwise the indentation
string repeated depth times. -/
def jsIndent (depth : Nat) (indentStr : String) : String :=
  if depth = 0 then "" else strRepeat indentStr depth

/-- MarkdownRenderer.code: fence line with language, each line prefixed with
the current indentation. -/
def renderCode (text lang : String) (ctx : RenderingContext) : String :=
  let lines := text.splitOn "\n"
  let indentStr := jsIndent (ctx.indent.getD 0) "  "
  let lines2 := ("```" ++ lang) :: lines ++ ["```"]
  indentStr ++ strJoinSep ("\n" ++ indentStr) lines2

mutual
/-- MarkdownRenderer.renderToken: dispatch over the token kind. -/
def renderToken : Token → RenderingContext → String
  | .heading d text, _ => jsIndent d "#" ++ " " ++ text ++ "\n\n"
  | .list _ items ordered, ctx => renderListItems items ctx ordered 1 ++ "\n"
  | .listItem it, ctx => renderListItem it ctx
  | .paragraph text, _ => text ++ "\n"
  | .text text, _ => text
  | .space, _ => "\n"
  | .code text lang, ctx => renderCode text lang ctx
/-- The item loop of MarkdownRenderer.list: each item rendered with the list
ordering flag and its one-based index. -/
def renderListItems : List ListItemToken → RenderingContext → Bool → Nat → String
  | [], _, _, _ => ""
  | it :: rest, ctx, ordered, idx =>
    renderListItem it ⟨ctx.indent, some ordered, some idx⟩ ++
      renderListItems rest ctx ordered (idx + 1)
/-- MarkdownRenderer.listItem: bullet prefix, children rendered one indent
deeper and right-trimmed, the whole item right-trimmed plus one line feed. -/
def renderListItem : ListItemToken → RenderingContext → String
  | .mk _ _ children, ctx =>
    let ind := ctx.indent.getD 0
    let bullet := if ctx.orderedList.getD false then
        toString (ctx.itemIndex.getD 1) ++ "." else "-"
    jsTrimRight (jsIndent ind "  " ++ bullet ++ " " ++
      renderChildren children ⟨some (ind + 1), ctx.orderedList, ctx.itemIndex⟩) ++ "\n"
/-- The child loop of MarkdownRenderer.listItem. -/
def renderChildren : List Token → RenderingContext → String
  | [], _ => ""
  | c :: rest, ctx =>
    jsTrimRight (renderToken c ctx) ++ "\n" ++ renderChildren rest ctx
end

/-- MarkdownRenderer.render: concatenation over the top level tokens with
indent zero. -/
def mdRender : List Token → String
  | [] => ""
  | t :: ts => renderToken t ⟨some 0, none, none⟩ ++ mdRender ts

/-- The module level render of the markdown module: the renderer output
trimmed on both ends with one line feed appended, then entity-unescaped. -/
def render (tokens : List Token) : String :=
  jsUnescape (jsTrim (mdRender tokens) ++ "\n")

/-- createTextToken. -/
def createTextToken (text : String) : Token :=
  Token.text text

/-- createListToken: the source default depth is 1; callers pass 1 for the
default and 0 for GROUP_LIST_ITEM_DEPTH. -/
def createListToken (depth : Nat) : Token :=
  Token.list depth [] false

/-- createListItemToken: the source default depth is 0. -/
def createListItemToken (text : String) (depth : Nat) : ListItemToken :=
  ListItemToken.mk depth text [createTextToken text]

/-! Changelog orchestrator (src/tools/expotools/src/Changelogs.ts). -/

def UNPUBLISHED_VERSION_NAME : String := "master"

def VERSION_EMPTY_PARAGRAPH_TEXT : String :=
  "*This version does not introduce any user-facing changes.*"

def VERSION_HEADING_DEPTH : Nat := 2

def CHANGE_TYPE_HEADING_DEPTH : Nat := 3

def GROUP_LIST_ITEM_DEPTH : Nat := 0

def UNPUBLISHED_VERSION_NAMES : List String := ["master", "unpublished"]

/-- The three members of the ChangeType enum. -/
def BREAKING_CHANGES : String := "🛠 Breaking changes"

def NEW_FEATURES : String := "🎉 New features"

def BUG_FIXES : String := "🐛 Bug fixes"

/-- A changelog entry: message with optional pull request numbers and authors. -/
structure Entry where
  message : String
  pullRequests : Option (List Nat)
  authors : Option (List String)

/-- The two error kinds thrown by insertEntriesAsync. -/
inductive InsertError where
  | versionNotFound (version : String)
  | changeTypeSectionNotFound (typeName : String)
deriving DecidableEq

/-- JS falsiness of an optional string: undefined or the empty string. -/
def strFalsy : Option String → Bool
  | none => true
  | some s => s == ""

/-- isVersionToken: heading of the version depth whose text matches the
optional version argument (any text when the argument is falsy). -/
def isVersionToken (version : Option String) (t : Token) : Bool :=
  match t with
  | Token.heading depth text =>
    depth == VERSION_HEADING_DEPTH && (strFalsy version || version == some text)
  | _ => false

/-- isChangeTypeToken: heading of the change type depth whose text matches the
optional changeType argument (any text when the argument is falsy). -/
def isChangeTypeToken (changeType : Option String) (t : Token) : Bool :=
  match t with
  | Token.heading depth text =>
    depth == CHANGE_TYPE_HEADING_DEPTH && (strFalsy changeType || changeType == some text)
  | _ => false

/-- getGroupLabel: bold inline code decoration of the group name. -/
def getGroupLabel (groupName : String) : String :=
  "**`" ++ groupName ++ "`**"

/-- isGroupToken: list item of group depth whose first child is a text token
carrying the decorated group label. -/
def isGroupToken (groupName : String) (it : ListItemToken) : Bool :=
  it.depth == GROUP_LIST_ITEM_DEPTH &&
    (match it.tokens.head? with
     | some (Token.text tx) => tx == getGroupLabel groupName
     | _ => false)

/-- The pull request link of getChangeEntryLabel. -/
def prLink (n : Nat) : String :=
  "[#" ++ toString n ++ "](https://github.com/expo/expo/pull/" ++ toString n ++ ")"

/-- The author link of getChangeEntryLabel. -/
def authorLink (a : String) : String :=
  "[@" ++ a ++ "](https://github.com/" ++ a ++ ")"

/-- getChangeEntryLabel: bare message, or message with the joined pull request
and author references in one trimmed parenthesized suffix. -/
def getChangeEntryLabel (e : Entry) : String :=
  let pullRequests := e.pullRequests.getD []
  let authors := e.authors.getD []
  if pullRequests.length + authors.length > 0 then
    let pullRequestsStr := strJoinSep ", " (pullRequests.map prLink)
    let authorsStr := strJoinSep ", " (authors.map authorLink)
    e.message ++ " (" ++ jsTrim (pullRequestsStr ++ " by " ++ authorsStr) ++ ")"
  else
    e.message

/-- Splits a token list at the first token satisfying the predicate, returning
the clean prefix, the found token and the rest; models Array.findIndex plus
index arithmetic. -/
def splitAtFirst (p : Token → Bool) : List Token → Option (List Token × Token × List Token)
  | [] => none
  | t :: ts =>
    if p t then some ([], t, ts)
    else (splitAtFirst p ts).map (fun r => (t :: r.1, r.2.1, r.2.2))

/-- The per-entry loop of insertEntriesAsync acting on the target list fields:
each iteration sets the list depth (1 for grouped, 0 otherwise) and appends
one item labelled by getChangeEntryLabel. -/
def pushEntriesFlat (isGrouped : Bool) (entries : List Entry) (depth : Nat)
    (items : List ListItemToken) : Nat × List ListItemToken :=
  entries.foldl
    (fun acc e =>
      ((if isGrouped then 1 else 0),
        acc.2 ++ [createListItemToken (getChangeEntryLabel e) 0]))
    (depth, items)

/-- Replaces the first list token among the children (Array.prototype.find plus
in-place mutation), if any. -/
def updateFirstList (f : Nat → List ListItemToken → Bool → Token) :
    List Token → Option (List Token)
  | [] => none
  | Token.list d items ordered :: ts => some (f d items ordered :: ts)
  | t :: ts => (updateFirstList f ts).map (fun ts2 => t :: ts2)

/-- The group sub-list step of insertEntriesAsync: find the first list among
the group item children and push the entries into it, or create the group list
(createListToken with GROUP_LIST_ITEM_DEPTH) and push into that. -/
def insertIntoGroupItem (entries : List Entry) (it : ListItemToken) : ListItemToken :=
  match it with
  | .mk d tx toks =>
    match updateFirstList
        (fun gd gitems gord =>
          let p := pushEntriesFlat true entries gd gitems
          Token.list p.1 p.2 gord) toks with
    | some toks2 => .mk d tx toks2
    | none =>
      let p := pushEntriesFlat true entries 0 []
      .mk d tx (toks ++ [Token.list p.1 p.2 false])

/-- findGroup plus in-place mutation of the found group item. -/
def updateGroupInItems (groupName : String) (f : ListItemToken → ListItemToken) :
    List ListItemToken → Option (List ListItemToken)
  | [] => none
  | it :: its =>
    if isGroupToken groupName it then some (f it :: its)
    else (updateGroupInItems groupName f its).map (fun its2 => it :: its2)

/-- The mutation insertEntriesAsync applies to the list token of the matched
change type section (grouped or flat); a falsy group (null or the empty
string) takes the flat path, matching JS truthiness of the group argument. -/
def applyInsert (group : Option String) (entries : List Entry) (depth : Nat)
    (items : List ListItemToken) (ordered : Bool) : Token :=
  match group with
  | none =>
    let p := pushEntriesFlat false entries depth items
    Token.list p.1 p.2 ordered
  | some g =>
    if g == "" then
      let p := pushEntriesFlat false entries depth items
      Token.list p.1 p.2 ordered
    else
      match updateGroupInItems g (insertIntoGroupItem entries) items with
      | some items2 => Token.list depth items2 ordered
      | none =>
        Token.list depth
          (items ++ [insertIntoGroupItem entries (createListItemToken (getGroupLabel g) 0)])
          ordered

/-- The inner scan of insertEntriesAsync after the change type heading was
matched: the first list token before a heading of strictly shallower depth is
mutated in place; otherwise a fresh list (createListToken with the default
depth 1) is spliced in right before that shallower heading, or at the end. -/
def spliceList (d : Nat) (group : Option String) (entries : List Entry) :
    List Token → List Token
  | [] =>
    [applyInsert group entries 1 [] false]
  | t :: ts =>
    match t with
    | Token.list ld items ordered => applyInsert group entries ld items ordered :: ts
    | Token.heading hd htext =>
      if hd < d then applyInsert group entries 1 [] false :: Token.heading hd htext :: ts
      else Token.heading hd htext :: spliceList d group entries ts
    | _ => t :: spliceList d group entries ts

/-- Auxiliary predicate: the tokens at which the inner list scan of
insertEntriesAsync stops (a list token, or a heading of strictly shallower
depth than the matched change type heading). -/
def stopsListScan (d : Nat) : Token → Bool
  | Token.list _ _ _ => true
  | Token.heading hd _ => decide (hd < d)
  | _ => false

/-- The forward scan of insertEntriesAsync from the token after the matched
version heading: a version heading gives the silent no-op, a matching change
type heading triggers the insertion, and exhaustion is the
ChangeTypeSectionNotFound failure. -/
def findChangeTypeScan (typeName : String) (group : Option String)
    (entries : List Entry) : List Token → Except InsertError (List Token)
  | [] => Except.error (InsertError.changeTypeSectionNotFound typeName)
  | t :: ts =>
    if isVersionToken none t then Except.ok (t :: ts)
    else if isChangeTypeToken (some typeName) t then
      Except.ok (t :: spliceList (match t with | Token.heading hd _ => hd | _ => 0)
        group entries ts)
    else (findChangeTypeScan typeName group entries ts).map (fun ts2 => t :: ts2)

/-- The body of insertEntriesAsync on the loaded token tree (everything after
the empty-entries guard and the token load). -/
def insertEntriesLoaded (version typeName : String) (group : Option String)
    (entries : List Entry) (tokens : List Token) : Except InsertError (List Token) :=
  match splitAtFirst (isVersionToken (some version)) tokens with
  | none => Except.error (InsertError.versionNotFound version)
  | some (before, vtok, after) =>
    (findChangeTypeScan typeName group entries after).map
      (fun after2 => before ++ vtok :: after2)

/-- The cleanup loop of cutOffAsync over the tokens after the first version
heading: removes a change type heading immediately followed by another heading
(or by the end), and stops at the next version heading. -/
def cleanupEmptySections : List Token → List Token
  | [] => []
  | t :: ts =>
    if isVersionToken none t then t :: ts
    else if isChangeTypeToken none t &&
        (match ts with
         | [] => true
         | n :: _ => isChangeTypeToken none n || isVersionToken none n) then
      cleanupEmptySections ts
    else t :: cleanupEmptySections ts

/-- The fresh unpublished-section skeleton spliced in by cutOffAsync. -/
def newSectionTokens : List Token :=
  [Token.heading VERSION_HEADING_DEPTH UNPUBLISHED_VERSION_NAME,
   Token.heading CHANGE_TYPE_HEADING_DEPTH BREAKING_CHANGES,
   Token.heading CHANGE_TYPE_HEADING_DEPTH NEW_FEATURES,
   Token.heading CHANGE_TYPE_HEADING_DEPTH BUG_FIXES]

/-- Sets the text of a heading token (the rename step of cutOffAsync; the
found token is always a heading). -/
def setHeadingText (version : String) : Token → Token
  | Token.heading d _ => Token.heading d version
  | t => t

/-- True when the cleanup loop of cutOffAsync kept nothing of the version
section, so the placeholder paragraph is inserted. -/
def sectionEmptied : List Token → Bool
  | [] => true
  | t :: _ => isVersionToken none t

/-- cutOffAsync on the loaded token tree. The source computes
tokens.findIndex(isVersionToken), passing the predicate directly, so the
array index fills the optional version parameter of isVersionToken: at index
0 the index is falsy (JS !0 is true) and any heading of the version depth
matches, while at any positive index the strict equality token.text === index
compares a string with a number and is false. The found index is therefore 0
when the very first token is a version heading, and -1 otherwise, even when a
version heading occurs later. At index 0 the heading is renamed, empty change
type sections are removed, the placeholder paragraph is inserted if the whole
section emptied, and the skeleton is spliced in at index 0. In the -1 case
the rename and cleanup are skipped and the JS splice with start -1 inserts
the skeleton before the last token (at 0 for an empty document). -/
def cutOffLoaded (version : String) (tokens : List Token) : List Token :=
  match tokens with
  | [] => newSectionTokens
  | t :: after =>
    if isVersionToken none t then
      let renamed := setHeadingText version t
      let cleaned := cleanupEmptySections after
      let sect :=
        if sectionEmptied cleaned then
          Token.paragraph VERSION_EMPTY_PARAGRAPH_TEXT :: cleaned
        else cleaned
      newSectionTokens ++ renamed :: sect
    else
      (t :: after).take ((t :: after).length - 1) ++ newSectionTokens ++
        (t :: after).drop ((t :: after).length - 1)

/-! getChangesAsync. -/

/-- ChangelogChanges: the versions record is modelled as an association list
in key insertion order, matching JS object semantics for string keys. -/
structure ChangelogChanges where
  totalCount : Nat
  versions : List (String × List (String × List String))
deriving DecidableEq

def alistHas (k : String) (l : List (String × α)) : Bool :=
  (l.find? (fun p => p.1 == k)).isSome

def alistEnsure (k : String) (v : α) (l : List (String × α)) : List (String × α) :=
  if alistHas k l then l else l ++ [(k, v)]

def alistUpdate (k : String) (f : α → α) : List (String × α) → List (String × α)
  | [] => []
  | p :: ps => if p.1 == k then (p.1, f p.2) :: ps else p :: alistUpdate k f ps

/-- The list-token branch of the getChangesAsync loop: one count and one entry
text per item. -/
def pushItems (v sec : String) (items : List ListItemToken)
    (acc : ChangelogChanges) : ChangelogChanges :=
  items.foldl
    (fun a it =>
      ⟨a.totalCount + 1,
        alistUpdate v (alistUpdate sec (fun l => l ++ [it.text])) a.versions⟩)
    acc

/-- The loop of getChangesAsync: walks the tokens tracking the current version
and current section, stopping at a version heading whose text differs from
toVersion while fromVersion is falsy or equal to the text. -/
def getChangesLoop (fromVersion : Option String) (toVersion : String) :
    List Token → Option String → Option String → ChangelogChanges → ChangelogChanges
  | [], _, _, acc => acc
  | t :: ts, cv, cs, acc =>
    match t with
    | Token.heading depth text =>
      if depth == VERSION_HEADING_DEPTH then
        if text != toVersion && (strFalsy fromVersion || fromVersion == some text) then
          acc
        else
          let cv2 := if UNPUBLISHED_VERSION_NAMES.contains text then "unpublished" else text
          getChangesLoop fromVersion toVersion ts (some cv2) none
            ⟨acc.totalCount, alistEnsure cv2 [] acc.versions⟩
      else if depth == CHANGE_TYPE_HEADING_DEPTH then
        match cv with
        | some v =>
          getChangesLoop fromVersion toVersion ts cv (some text)
            ⟨acc.totalCount, alistUpdate v (alistEnsure text []) acc.versions⟩
        | none => getChangesLoop fromVersion toVersion ts cv cs acc
      else getChangesLoop fromVersion toVersion ts cv cs acc
    | Token.list _ items _ =>
      match cv, cs with
      | some v, some sec =>
        getChangesLoop fromVersion toVersion ts cv cs (pushItems v sec items acc)
      | _, _ => getChangesLoop fromVersion toVersion ts cv cs acc
    | _ => getChangesLoop fromVersion toVersion ts cv cs acc

/-- getChangesAsync on the loaded token tree. The default of the toVersion
parameter in the source is UNPUBLISHED_VERSION_NAME. -/
def getChangesLoaded (fromVersion : Option String) (toVersion : String)
    (tokens : List Token) : ChangelogChanges :=
  getChangesLoop fromVersion toVersion tokens none none ⟨0, []⟩

/-- The token at which the getChangesAsync loop stops: a version heading whose
text differs from toVersion while fromVersion is falsy or equal to the text. -/
def stopsChangesScan (fromVersion : Option String) (toVersion : String) : Token → Bool
  | Token.heading depth text =>
    depth == VERSION_HEADING_DEPTH &&
      (text != toVersion && (strFalsy fromVersion || fromVersion == some text))
  | _ => false

/-- The getChangesAsync loop with the early stop removed (collects over the
whole input); used to state the amended bounded-scan property. -/
def collectChangesLoop (fromVersion : Option String) (toVersion : String) :
    List Token → Option String → Option String → ChangelogChanges → ChangelogChanges
  | [], _, _, acc => acc
  | t :: ts, cv, cs, acc =>
    match t with
    | Token.heading depth text =>
      if depth == VERSION_HEADING_DEPTH then
        let cv2 := if UNPUBLISHED_VERSION_NAMES.contains text then "unpublished" else text
        collectChangesLoop fromVersion toVersion ts (some cv2) none
          ⟨acc.totalCount, alistEnsure cv2 [] acc.versions⟩
      else if depth == CHANGE_TYPE_HEADING_DEPTH then
        match cv with
        | some v =>
          collectChangesLoop fromVersion toVersion ts cv (some text)
            ⟨acc.totalCount, alistUpdate v (alistEnsure text []) acc.versions⟩
        | none => collectChangesLoop fromVersion toVersion ts cv cs acc
      else collectChangesLoop fromVersion toVersion ts cv cs acc
    | Token.list _ items _ =>
      match cv, cs with
      | some v, some sec =>
        collectChangesLoop fromVersion toVersion ts cv cs (pushItems v sec items acc)
      | _, _ => collectChangesLoop fromVersion toVersion ts cv cs acc
    | _ => collectChangesLoop fromVersion toVersion ts cv cs acc

/-- Reading of claim C3, for comparison with the source behaviour: the scan is
said to stop exactly at a version heading whose text is neither toVersion nor
the given fromVersion and which is not the very first version heading of the
walk; the extra Bool argument tracks whether a version heading was seen. -/
def getChangesClaimC3Loop (fromVersion : Option String) (toVersion : String) :
    List Token → Option String → Option String → Bool → ChangelogChanges → ChangelogChanges
  | [], _, _, _, acc => acc
  | t :: ts, cv, cs, seen, acc =>
    match t with
    | Token.heading depth text =>
      if depth == VERSION_HEADING_DEPTH then
        if seen && text != toVersion &&
            (match fromVersion with | some fv => text != fv | none => true) then
          acc
        else
          let cv2 := if UNPUBLISHED_VERSION_NAMES.contains text then "unpublished" else text
          getChangesClaimC3Loop fromVersion toVersion ts (some cv2) none true
            ⟨acc.totalCount, alistEnsure cv2 [] acc.versions⟩
      else if depth == CHANGE_TYPE_HEADING_DEPTH then
        match cv with
        | some v =>
          getChangesClaimC3Loop fromVersion toVersion ts cv (some text) seen
            ⟨acc.totalCount, alistUpdate v (alistEnsure text []) acc.versions⟩
        | none => getChangesClaimC3Loop fromVersion toVersion ts cv cs seen acc
      else getChangesClaimC3Loop fromVersion toVersion ts cv cs seen acc
    | Token.list _ items _ =>
      match cv, cs with
      | some v, some sec =>
        getChangesClaimC3Loop fromVersion toVersion ts cv cs seen (pushItems v sec items acc)
      | _, _ => getChangesClaimC3Loop fromVersion toVersion ts cv cs seen acc
    | _ => getChangesClaimC3Loop fromVersion toVersion ts cv cs seen acc

/-- Reading of claim C3 at the top level. -/
def getChangesClaimC3 (fromVersion : Option String) (toVersion : String)
    (tokens : List Token) : ChangelogChanges :=
  getChangesClaimC3Loop fromVersion toVersion tokens none none false ⟨0, []⟩

/-- Reading of claim C8, for comparison with the source behaviour: the
renderer output right-trimmed only, with one line feed appended, then
entity-unescaped. -/
def renderClaimC8 (tokens : List Token) : String :=
  jsUnescape (jsTrimRight (mdRender tokens) ++ "\n")

/-! The Changelog instance state: backing file content and the lazily loaded
token cache. File system reads are abstracted by a lexFn parameter standing
for the external markdown tokenizer composed with the file read; a read
failure yielding the empty token list is one possible lexFn. -/

structure CState where
  disk : String
  cache : Option (List Token)
deriving Nonempty

/-- getTokensAsync: returns the cached tokens, loading them on first use. -/
def getTokensState (lexFn : String → List Token) (s : CState) :
    List Token × CState :=
  match s.cache with
  | some ts => (ts, s)
  | none =>
    let ts := lexFn s.disk
    (ts, ⟨s.disk, some ts⟩)

/-- insertEntriesAsync over the instance state: the empty-entries guard comes
before the token load; on success the cache holds the mutated tree; a thrown
error leaves the state as of the load. No file write happens here. -/
def insertEntriesAsyncM (lexFn : String → List Token) (version typeName : String)
    (group : Option String) (entries : List Entry) (s : CState) :
    Except InsertError Unit × CState :=
  if entries.length = 0 then (Except.ok (), s)
  else
    let p := getTokensState lexFn s
    match insertEntriesLoaded version typeName group entries p.1 with
    | Except.ok ts2 => (Except.ok (), ⟨p.2.disk, some ts2⟩)
    | Except.error e => (Except.error e, p.2)

/-- cutOffAsync over the instance state: always writes the rendered result
to the file and resets the cache to the uninitialized state. -/
def cutOffAsyncM (lexFn : String → List Token) (version : String) (s : CState) :
    CState :=
  let p := getTokensState lexFn s
  ⟨render (cutOffLoaded version p.1), none⟩

/-- A string ends with exactly one line feed: its characters are some prefix
not ending in a line feed, followed by one line feed. -/
def endsWithExactlyOneNewline (s : String) : Prop :=
  ∃ l, s.data = l ++ ['\n'] ∧ l.getLast? ≠ some '\n'

/-! Helper lemmas. -/

theorem strData_append (s t : String) : (s ++ t).data = s.data ++ t.data := by
  cases s
  cases t
  rfl

theorem splitAtFirst_of_prefix (p : Token → Bool) (pre : List Token) (t : Token)
    (rest : List Token) (hpre : ∀ x ∈ pre, p x = false) (ht : p t = true) :
    splitAtFirst p (pre ++ t :: rest) = some (pre, t, rest) := by
  induction pre with
  | nil => simp [splitAtFirst, ht]
  | cons a as ih =>
    have ha := hpre a (by simp)
    simp [splitAtFirst, ha, ih (fun x hx => hpre x (by simp [hx]))]

theorem splitAtFirst_eq_none (p : Token → Bool) (l : List Token)
    (h : ∀ x ∈ l, p x = false) : splitAtFirst p l = none := by
  induction l with
  | nil => rfl
  | cons a as ih =>
    have ha := h a (by simp)
    simp [splitAtFirst, ha, ih (fun x hx => h x (by simp [hx]))]

theorem findChangeTypeScan_noop (typeName : String) (group : Option String)
    (entries : List Entry) (mid : List Token) (v2 : String) (rest : List Token)
    (hmid : ∀ t ∈ mid, isVersionToken none t = false ∧
      isChangeTypeToken (some typeName) t = false) :
    findChangeTypeScan typeName group entries
        (mid ++ Token.heading VERSION_HEADING_DEPTH v2 :: rest)
      = Except.ok (mid ++ Token.heading VERSION_HEADING_DEPTH v2 :: rest) := by
  induction mid with
  | nil => simp [findChangeTypeScan, isVersionToken, strFalsy]
  | cons t mid' ih =>
    obtain ⟨hv, hc⟩ := hmid t (by simp)
    have ih' := ih (fun x hx => hmid x (by simp [hx]))
    simp [findChangeTypeScan, hv, hc, ih', Except.map]

theorem findChangeTypeScan_notFound (typeName : String) (group : Option String)
    (entries : List Entry) (mid : List Token)
    (hmid : ∀ t ∈ mid, isVersionToken none t = false ∧
      isChangeTypeToken (some typeName) t = false) :
    findChangeTypeScan typeName group entries mid
      = Except.error (InsertError.changeTypeSectionNotFound typeName) := by
  induction mid with
  | nil => rfl
  | cons t mid' ih =>
    obtain ⟨hv, hc⟩ := hmid t (by simp)
    have ih' := ih (fun x hx => hmid x (by simp [hx]))
    simp [findChangeTypeScan, hv, hc, ih', Except.map]

theorem spliceList_prefix (d : Nat) (group : Option String) (entries : List Entry)
    (mid suf : List Token) (hmid : ∀ t ∈ mid, stopsListScan d t = false) :
    spliceList d group entries (mid ++ suf) = mid ++ spliceList d group entries suf := by
  induction mid with
  | nil => simp
  | cons t mid' ih =>
    have ht := hmid t (by simp)
    have ih' := ih (fun x hx => hmid x (by simp [hx]))
    cases t with
    | list ld items ord => simp [stopsListScan] at ht
    | heading hd htext =>
      have hlt : ¬ (hd < d) := by simpa [stopsListScan] using ht
      simp [spliceList, hlt, ih']
    | listItem it => simp [spliceList, ih']
    | paragraph tx => simp [spliceList, ih']
    | text tx => simp [spliceList, ih']
    | space => simp [spliceList, ih']
    | code tx lang => simp [spliceList, ih']

/-! Claim theorems. -/

/-- Claim C10 (confirmed): insertEntriesAsync with an empty entries array
returns successfully and leaves the whole state unchanged, for every version,
type and group: the empty-entries guard runs before the version lookup and
before the tokens are loaded, so the cache is not even populated. -/
theorem c10_emptyEntries (lexFn : String → List Token) (version typeName : String)
    (group : Option String) (s : CState) :
    insertEntriesAsyncM lexFn version typeName group [] s = (Except.ok (), s) := rfl

/-- Claim C5 (confirmed): insertEntriesAsync with non-empty entries on a token
tree with no version heading matching the requested version fails with
VersionNotFound and performs no mutation: the backing file content and the
loaded token tree are unchanged. -/
theorem c5_versionNotFound (lexFn : String → List Token) (version typeName : String)
    (group : Option String) (entries : List Entry) (d : String) (tokens : List Token)
    (hne : entries.length ≠ 0)
    (hno : ∀ t ∈ tokens, isVersionToken (some version) t = false) :
    insertEntriesAsyncM lexFn version typeName group entries ⟨d, some tokens⟩
      = (Except.error (InsertError.versionNotFound version), ⟨d, some tokens⟩) := by
  simp [insertEntriesAsyncM, hne, getTokensState, insertEntriesLoaded,
    splitAtFirst_eq_none _ _ hno]

/-- Claim C5 witness at a concrete input. -/
theorem c5_versionNotFound_witness :
    insertEntriesAsyncM (fun _ => []) "9.9.9" "🐛 Bug fixes" none
        [⟨"m", none, none⟩] ⟨"", some [Token.heading 2 "master"]⟩
      = (Except.error (InsertError.versionNotFound "9.9.9"),
          ⟨"", some [Token.heading 2 "master"]⟩) :=
  c5_versionNotFound _ _ _ _ _ _ _ (by decide) (by decide)

/-- Claim C4 (confirmed): after insertEntriesAsync finds the target version
heading, reaching another version heading before a matching change type
heading gives a successful return with no change at all (silent no-op), while
reaching the end of the tokens gives the ChangeTypeSectionNotFound failure. -/
theorem c4_changeTypeScan (lexFn : String → List Token) (version typeName : String)
    (group : Option String) (entries : List Entry) (pre mid rest : List Token)
    (v2 : String) (d : String)
    (hne : entries.length ≠ 0)
    (hpre : ∀ t ∈ pre, isVersionToken (some version) t = false)
    (hmid : ∀ t ∈ mid, isVersionToken none t = false ∧
      isChangeTypeToken (some typeName) t = false) :
    insertEntriesAsyncM lexFn version typeName group entries
        ⟨d, some (pre ++ Token.heading VERSION_HEADING_DEPTH version ::
          mid ++ Token.heading VERSION_HEADING_DEPTH v2 :: rest)⟩
      = (Except.ok (), ⟨d, some (pre ++ Token.heading VERSION_HEADING_DEPTH version ::
          mid ++ Token.heading VERSION_HEADING_DEPTH v2 :: rest)⟩) ∧
    insertEntriesAsyncM lexFn version typeName group entries
        ⟨d, some (pre ++ Token.heading VERSION_HEADING_DEPTH version :: mid)⟩
      = (Except.error (InsertError.changeTypeSectionNotFound typeName),
          ⟨d, some (pre ++ Token.heading VERSION_HEADING_DEPTH version :: mid)⟩) := by
  have hv : isVersionToken (some version) (Token.heading VERSION_HEADING_DEPTH version)
      = true := by
    simp [isVersionToken, strFalsy]
  constructor
  · simp [insertEntriesAsyncM, hne, getTokensState, insertEntriesLoaded,
      splitAtFirst_of_prefix _ _ _ _ hpre hv,
      findChangeTypeScan_noop _ _ _ _ _ _ hmid, Except.map]
  · simp [insertEntriesAsyncM, hne, getTokensState, insertEntriesLoaded,
      splitAtFirst_of_prefix _ _ _ _ hpre hv,
      findChangeTypeScan_notFound _ _ _ _ hmid, Except.map]

/-- Claim C4 witness at a concrete input. -/
theorem c4_changeTypeScan_witness :
    insertEntriesAsyncM (fun _ => []) "master" "🛠 Breaking changes" none
        [⟨"m", none, none⟩]
        ⟨"", some ([Token.heading 1 "Changelog"] ++ Token.heading 2 "master" ::
          [Token.paragraph "hello"] ++ Token.heading 2 "1.0.0" :: [])⟩
      = (Except.ok (), ⟨"", some ([Token.heading 1 "Changelog"] ++
          Token.heading 2 "master" :: [Token.paragraph "hello"] ++
          Token.heading 2 "1.0.0" :: [])⟩) ∧
    insertEntriesAsyncM (fun _ => []) "master" "🛠 Breaking changes" none
        [⟨"m", none, none⟩]
        ⟨"", some ([Token.heading 1 "Changelog"] ++ Token.heading 2 "master" ::
          [Token.paragraph "hello"])⟩
      = (Except.error (InsertError.changeTypeSectionNotFound "🛠 Breaking changes"),
          ⟨"", some ([Token.heading 1 "Changelog"] ++ Token.heading 2 "master" ::
            [Token.paragraph "hello"])⟩) :=
  c4_changeTypeScan (fun _ => []) "master" "🛠 Breaking changes" none
    [⟨"m", none, none⟩] [Token.heading 1 "Changelog"] [Token.paragraph "hello"]
    [] "1.0.0" "" (by decide) (by decide) (by decide)

/-- Claim C1 counterexample: on a tree where the matched change type section
A is immediately followed by another change type heading B of equal depth, the
fresh list is spliced after B (before the next strictly shallower heading),
not immediately before B as the shallower-or-equal rule of the claim
demands. -/
theorem c1_counterexample :
    insertEntriesLoaded "master" "A" none [⟨"x", none, none⟩]
        [Token.heading 2 "master", Token.heading 3 "A", Token.heading 3 "B",
          Token.heading 2 "1.0.0"]
      = Except.ok [Token.heading 2 "master", Token.heading 3 "A", Token.heading 3 "B",
          Token.list 0 [ListItemToken.mk 0 "x" [Token.text "x"]] false,
          Token.heading 2 "1.0.0"] ∧
    ([Token.heading 2 "master", Token.heading 3 "A", Token.heading 3 "B",
        Token.list 0 [ListItemToken.mk 0 "x" [Token.text "x"]] false,
        Token.heading 2 "1.0.0"] : List Token)
      ≠ [Token.heading 2 "master", Token.heading 3 "A",
          Token.list 0 [ListItemToken.mk 0 "x" [Token.text "x"]] false,
          Token.heading 3 "B", Token.heading 2 "1.0.0"] :=
  ⟨rfl, fun hEq => absurd (congrArg (List.map tokenKindIdx) hEq) (by decide)⟩

/-- Claim C1 (amended): once the change type heading is matched, the scan for
the section list passes over headings of equal depth and stops only at a
heading of strictly shallower depth; a missing list is created and spliced
immediately before that strictly shallower heading (or at the end of the
tokens), and an existing list found there is mutated in place, even one
sitting after a later change type heading of equal depth, so entries can land
in a later change type section. -/
theorem c1_amended (version typeName : String) (group : Option String)
    (entries : List Entry) (mid : List Token) (ds : Nat) (ts2 : String)
    (rest : List Token) (ld : Nat) (items : List ListItemToken) (ord : Bool)
    (rest2 : List Token)
    (hmid : ∀ t ∈ mid, stopsListScan CHANGE_TYPE_HEADING_DEPTH t = false)
    (hds : ds < CHANGE_TYPE_HEADING_DEPTH) :
    insertEntriesLoaded version typeName group entries
        (Token.heading VERSION_HEADING_DEPTH version ::
          Token.heading CHANGE_TYPE_HEADING_DEPTH typeName ::
          mid ++ Token.heading ds ts2 :: rest)
      = Except.ok (Token.heading VERSION_HEADING_DEPTH version ::
          Token.heading CHANGE_TYPE_HEADING_DEPTH typeName ::
          mid ++ applyInsert group entries 1 [] false ::
          Token.heading ds ts2 :: rest) ∧
    insertEntriesLoaded version typeName group entries
        (Token.heading VERSION_HEADING_DEPTH version ::
          Token.heading CHANGE_TYPE_HEADING_DEPTH typeName :: mid)
      = Except.ok (Token.heading VERSION_HEADING_DEPTH version ::
          Token.heading CHANGE_TYPE_HEADING_DEPTH typeName ::
          mid ++ [applyInsert group entries 1 [] false]) ∧
    insertEntriesLoaded version typeName group entries
        (Token.heading VERSION_HEADING_DEPTH version ::
          Token.heading CHANGE_TYPE_HEADING_DEPTH typeName ::
          mid ++ Token.list ld items ord :: rest2)
      = Except.ok (Token.heading VERSION_HEADING_DEPTH version ::
          Token.heading CHANGE_TYPE_HEADING_DEPTH typeName ::
          mid ++ applyInsert group entries ld items ord :: rest2) := by
  have hsplice := spliceList_prefix CHANGE_TYPE_HEADING_DEPTH group entries mid
  simp only [CHANGE_TYPE_HEADING_DEPTH] at hsplice hds
  refine ⟨?_, ?_, ?_⟩
  · have h1 := hsplice (Token.heading ds ts2 :: rest) hmid
    simp [insertEntriesLoaded, splitAtFirst, isVersionToken, isChangeTypeToken,
      strFalsy, findChangeTypeScan, Except.map, h1, spliceList, hds,
      VERSION_HEADING_DEPTH, CHANGE_TYPE_HEADING_DEPTH]
  · have h1 := hsplice [] hmid
    simp only [List.append_nil] at h1
    simp [insertEntriesLoaded, splitAtFirst, isVersionToken, isChangeTypeToken,
      strFalsy, findChangeTypeScan, Except.map, h1, spliceList,
      VERSION_HEADING_DEPTH, CHANGE_TYPE_HEADING_DEPTH]
  · have h1 := hsplice (Token.list ld items ord :: rest2) hmid
    simp [insertEntriesLoaded, splitAtFirst, isVersionToken, isChangeTypeToken,
      strFalsy, findChangeTypeScan, Except.map, h1, spliceList,
      VERSION_HEADING_DEPTH, CHANGE_TYPE_HEADING_DEPTH]

/-- Claim C1 witness at a concrete input, exhibiting the splice landing after
a later change type heading of equal depth. -/
theorem c1_amended_witness :
    insertEntriesLoaded "master" "🛠 Breaking changes" none [⟨"x", none, none⟩]
        (Token.heading VERSION_HEADING_DEPTH "master" ::
          Token.heading CHANGE_TYPE_HEADING_DEPTH "🛠 Breaking changes" ::
          [Token.heading 3 "🎉 New features"] ++ Token.heading 2 "1.0.0" :: [])
      = Except.ok (Token.heading VERSION_HEADING_DEPTH "master" ::
          Token.heading CHANGE_TYPE_HEADING_DEPTH "🛠 Breaking changes" ::
          [Token.heading 3 "🎉 New features"] ++
          applyInsert none [⟨"x", none, none⟩] 1 [] false ::
          Token.heading 2 "1.0.0" :: []) ∧
    insertEntriesLoaded "master" "🛠 Breaking changes" none [⟨"x", none, none⟩]
        (Token.heading VERSION_HEADING_DEPTH "master" ::
          Token.heading CHANGE_TYPE_HEADING_DEPTH "🛠 Breaking changes" ::
          [Token.heading 3 "🎉 New features"])
      = Except.ok (Token.heading VERSION_HEADING_DEPTH "master" ::
          Token.heading CHANGE_TYPE_HEADING_DEPTH "🛠 Breaking changes" ::
          [Token.heading 3 "🎉 New features"] ++
          [applyInsert none [⟨"x", none, none⟩] 1 [] false]) ∧
    insertEntriesLoaded "master" "🛠 Breaking changes" none [⟨"x", none, none⟩]
        (Token.heading VERSION_HEADING_DEPTH "master" ::
          Token.heading CHANGE_TYPE_HEADING_DEPTH "🛠 Breaking changes" ::
          [Token.heading 3 "🎉 New features"] ++
          Token.list 0 [ListItemToken.mk 0 "old" [Token.text "old"]] false :: [])
      = Except.ok (Token.heading VERSION_HEADING_DEPTH "master" ::
          Token.heading CHANGE_TYPE_HEADING_DEPTH "🛠 Breaking changes" ::
          [Token.heading 3 "🎉 New features"] ++
          applyInsert none [⟨"x", none, none⟩] 0
            [ListItemToken.mk 0 "old" [Token.text "old"]] false :: []) :=
  c1_amended "master" "🛠 Breaking changes" none [⟨"x", none, none⟩]
    [Token.heading 3 "🎉 New features"] 2 "1.0.0" [] 0
    [ListItemToken.mk 0 "old" [Token.text "old"]] false []
    (by decide) (by decide)

/-- Claim C2 counterexample: cutOff on a document with no version heading and
two paragraphs splices the skeleton between them (JS splice with start -1),
not at position 0. -/
theorem c2_counterexample :
    cutOffLoaded "1.0.0" [Token.paragraph "a", Token.paragraph "b"]
      = [Token.paragraph "a"] ++ newSectionTokens ++ [Token.paragraph "b"] ∧
    [Token.paragraph "a"] ++ newSectionTokens ++ [Token.paragraph "b"]
      ≠ newSectionTokens ++ [Token.paragraph "a", Token.paragraph "b"] :=
  ⟨rfl, fun hEq => absurd (congrArg (List.map tokenKindIdx) hEq) (by decide)⟩

/-- Claim C2 (amended): when the document has no heading of the version depth,
the rename step is skipped and the skeleton is spliced at index
max(length - 1, 0), i.e. immediately before the last token (start of document
only for documents with at most one token), because Array.findIndex returns -1
and Array.splice treats -1 as length - 1. -/
theorem c2_amended (version : String) (tokens : List Token)
    (hno : ∀ t ∈ tokens, isVersionToken none t = false) :
    cutOffLoaded version tokens
      = tokens.take (tokens.length - 1) ++ newSectionTokens ++
        tokens.drop (tokens.length - 1) := by
  cases tokens with
  | nil => simp [cutOffLoaded]
  | cons t after =>
    have ht := hno t (by simp)
    simp [cutOffLoaded, ht]

/-- Claim C2 witness at a concrete input. -/
theorem c2_amended_witness :
    cutOffLoaded "1.0.0" [Token.paragraph "a", Token.paragraph "b"]
      = [Token.paragraph "a"] ++ newSectionTokens ++ [Token.paragraph "b"] :=
  c2_amended "1.0.0" [Token.paragraph "a", Token.paragraph "b"] (by decide)

/-- Claim C6 (code bug): cutOffAsync passes isVersionToken directly to
Array.findIndex, so the array index fills the optional version parameter and
only a version heading sitting at index 0 can ever match. On a changelog
whose first token is a title heading before the unpublished master heading
(the usual shape of the file on disk) the found index is -1: the master
heading is not renamed, no empty change type section is removed, no
placeholder paragraph is inserted, and the skeleton is spliced before the
last token, inside the old section, rather than prepended on top. This
contradicts the claim and the source's own comments (rename the first found
version header, insert the new tokens before the first version header, add
the new section on top); the sibling findIndex call of insertEntriesAsync
wraps the predicate in a lambda, showing the direct pass is a slip. This
theorem evaluates the modelled code at the failing input, including the
immediate write and the cache reset, and separates the result from the
outcome the claim describes. -/
theorem c6_cutOff :
    cutOffLoaded "1.0.0"
        [Token.heading 1 "Changelog",
          Token.heading VERSION_HEADING_DEPTH UNPUBLISHED_VERSION_NAME,
          Token.heading CHANGE_TYPE_HEADING_DEPTH BREAKING_CHANGES,
          Token.heading CHANGE_TYPE_HEADING_DEPTH NEW_FEATURES,
          Token.heading CHANGE_TYPE_HEADING_DEPTH BUG_FIXES]
      = [Token.heading 1 "Changelog",
          Token.heading VERSION_HEADING_DEPTH UNPUBLISHED_VERSION_NAME,
          Token.heading CHANGE_TYPE_HEADING_DEPTH BREAKING_CHANGES,
          Token.heading CHANGE_TYPE_HEADING_DEPTH NEW_FEATURES] ++
        newSectionTokens ++ [Token.heading CHANGE_TYPE_HEADING_DEPTH BUG_FIXES] ∧
    cutOffAsyncM (fun _ => []) "1.0.0"
        ⟨"old", some [Token.heading 1 "Changelog",
          Token.heading VERSION_HEADING_DEPTH UNPUBLISHED_VERSION_NAME,
          Token.heading CHANGE_TYPE_HEADING_DEPTH BREAKING_CHANGES,
          Token.heading CHANGE_TYPE_HEADING_DEPTH NEW_FEATURES,
          Token.heading CHANGE_TYPE_HEADING_DEPTH BUG_FIXES]⟩
      = ⟨render ([Token.heading 1 "Changelog",
          Token.heading VERSION_HEADING_DEPTH UNPUBLISHED_VERSION_NAME,
          Token.heading CHANGE_TYPE_HEADING_DEPTH BREAKING_CHANGES,
          Token.heading CHANGE_TYPE_HEADING_DEPTH NEW_FEATURES] ++
          newSectionTokens ++ [Token.heading CHANGE_TYPE_HEADING_DEPTH BUG_FIXES]),
          none⟩ ∧
    [Token.heading 1 "Changelog",
        Token.heading VERSION_HEADING_DEPTH UNPUBLISHED_VERSION_NAME,
        Token.heading CHANGE_TYPE_HEADING_DEPTH BREAKING_CHANGES,
        Token.heading CHANGE_TYPE_HEADING_DEPTH NEW_FEATURES] ++
      newSectionTokens ++ [Token.heading CHANGE_TYPE_HEADING_DEPTH BUG_FIXES]
      ≠ [Token.heading 1 "Changelog"] ++ newSectionTokens ++
        [Token.heading VERSION_HEADING_DEPTH "1.0.0",
          Token.paragraph VERSION_EMPTY_PARAGRAPH_TEXT] :=
  ⟨rfl, rfl, fun h => absurd (congrArg List.length h) (by decide)⟩

theorem getChangesLoop_eq_collect (fromVersion : Option String) (toVersion : String) :
    ∀ (l : List Token) (cv cs : Option String) (acc : ChangelogChanges),
      getChangesLoop fromVersion toVersion l cv cs acc =
        collectChangesLoop fromVersion toVersion
          (l.takeWhile (fun t => !stopsChangesScan fromVersion toVersion t)) cv cs acc
  | [], _, _, _ => rfl
  | t :: ts, cv, cs, acc => by
    have ih := getChangesLoop_eq_collect fromVersion toVersion ts
    cases t with
    | heading depth text =>
      by_cases hd2 : (depth == VERSION_HEADING_DEPTH) = true
      · by_cases hstop :
          (text != toVersion && (strFalsy fromVersion || fromVersion == some text)) = true
        · have hsc : stopsChangesScan fromVersion toVersion (Token.heading depth text)
              = true := by
            simp [stopsChangesScan, hd2, hstop]
          simp [getChangesLoop, collectChangesLoop, List.takeWhile_cons,
            hsc, hd2, hstop]
        · have hsc : stopsChangesScan fromVersion toVersion (Token.heading depth text)
              = false := by
            simp only [stopsChangesScan, hd2, hstop, Bool.true_and]
          simp [getChangesLoop, collectChangesLoop, List.takeWhile_cons,
            hsc, hd2, hstop, ih]
      · have hsc : stopsChangesScan fromVersion toVersion (Token.heading depth text)
            = false := by
          simp [stopsChangesScan, hd2]
        by_cases hd3 : (depth == CHANGE_TYPE_HEADING_DEPTH) = true
        · cases cv <;> simp [getChangesLoop, collectChangesLoop,
            List.takeWhile_cons, hsc, hd2, hd3, ih]
        · simp [getChangesLoop, collectChangesLoop, List.takeWhile_cons,
            hsc, hd2, hd3, ih]
    | list ld items ord =>
      cases cv <;> cases cs <;>
        simp [getChangesLoop, collectChangesLoop, show stopsChangesScan fromVersion
          toVersion (Token.list ld items ord) = false from rfl,
          List.takeWhile_cons, ih]
    | listItem it =>
      simp [getChangesLoop, collectChangesLoop, show stopsChangesScan fromVersion
        toVersion (Token.listItem it) = false from rfl, List.takeWhile_cons, ih]
    | paragraph tx =>
      simp [getChangesLoop, collectChangesLoop, show stopsChangesScan fromVersion
        toVersion (Token.paragraph tx) = false from rfl, List.takeWhile_cons, ih]
    | text tx =>
      simp [getChangesLoop, collectChangesLoop, show stopsChangesScan fromVersion
        toVersion (Token.text tx) = false from rfl, List.takeWhile_cons, ih]
    | space =>
      simp [getChangesLoop, collectChangesLoop, show stopsChangesScan fromVersion
        toVersion Token.space = false from rfl, List.takeWhile_cons, ih]
    | code tx lang =>
      simp [getChangesLoop, collectChangesLoop, show stopsChangesScan fromVersion
        toVersion (Token.code tx lang) = false from rfl, List.takeWhile_cons, ih]

/-- Claim C3 counterexample: with no fromVersion, the walk stops at the very
first version heading when its text differs from toVersion, so a changelog
starting with a published section yields no changes at all, while the claim
reading (no stop at the very first version heading) would collect both
sections. -/
theorem c3_counterexample :
    getChangesLoaded none UNPUBLISHED_VERSION_NAME
        [Token.heading 2 "1.0.0", Token.heading 3 "T",
          Token.list 0 [ListItemToken.mk 0 "a" [Token.text "a"]] false,
          Token.heading 2 "master", Token.heading 3 "T",
          Token.list 0 [ListItemToken.mk 0 "b" [Token.text "b"]] false]
      = ⟨0, []⟩ ∧
    getChangesClaimC3 none UNPUBLISHED_VERSION_NAME
        [Token.heading 2 "1.0.0", Token.heading 3 "T",
          Token.list 0 [ListItemToken.mk 0 "a" [Token.text "a"]] false,
          Token.heading 2 "master", Token.heading 3 "T",
          Token.list 0 [ListItemToken.mk 0 "b" [Token.text "b"]] false]
      = ⟨2, [("1.0.0", [("T", ["a"])]), ("unpublished", [("T", ["b"])])]⟩ ∧
    getChangesLoaded none UNPUBLISHED_VERSION_NAME
        [Token.heading 2 "1.0.0", Token.heading 3 "T",
          Token.list 0 [ListItemToken.mk 0 "a" [Token.text "a"]] false,
          Token.heading 2 "master", Token.heading 3 "T",
          Token.list 0 [ListItemToken.mk 0 "b" [Token.text "b"]] false]
      ≠ getChangesClaimC3 none UNPUBLISHED_VERSION_NAME
        [Token.heading 2 "1.0.0", Token.heading 3 "T",
          Token.list 0 [ListItemToken.mk 0 "a" [Token.text "a"]] false,
          Token.heading 2 "master", Token.heading 3 "T",
          Token.list 0 [ListItemToken.mk 0 "b" [Token.text "b"]] false] := by
  refine ⟨by decide, by decide, by decide⟩

/-- Claim C3 (amended): the walk processes exactly the longest prefix of the
tokens containing no version heading whose text differs from toVersion while
fromVersion is absent or equal to that text; there is no exemption for the
first version heading, and with fromVersion given the scan stops at the
fromVersion heading itself. On the two-section changelog of the claim, the
no-argument call returns exactly the unpublished entries with their count. -/
theorem c3_amended (fromVersion : Option String) (toVersion : String)
    (tokens : List Token) :
    getChangesLoaded fromVersion toVersion tokens
      = collectChangesLoop fromVersion toVersion
          (tokens.takeWhile (fun t => !stopsChangesScan fromVersion toVersion t))
          none none ⟨0, []⟩ ∧
    getChangesLoaded none UNPUBLISHED_VERSION_NAME
        [Token.heading 2 "master", Token.heading 3 "🐛 Bug fixes",
          Token.list 0 [ListItemToken.mk 0 "a" [Token.text "a"],
            ListItemToken.mk 0 "b" [Token.text "b"]] false,
          Token.heading 2 "1.0.0", Token.heading 3 "🐛 Bug fixes",
          Token.list 0 [ListItemToken.mk 0 "c" [Token.text "c"]] false]
      = ⟨2, [("unpublished", [("🐛 Bug fixes", ["a", "b"])])]⟩ :=
  ⟨getChangesLoop_eq_collect fromVersion toVersion tokens none none ⟨0, []⟩,
    by decide⟩

theorem entityAt_eq_some (l : List Char) (r : Char) (l2 : List Char) :
    entityAt l = some (r, l2) ↔
      ('&' = r ∧ l = 'a' :: 'm' :: 'p' :: ';' :: l2) ∨
      ('<' = r ∧ l = 'l' :: 't' :: ';' :: l2) ∨
      ('>' = r ∧ l = 'g' :: 't' :: ';' :: l2) ∨
      ('"' = r ∧ l = 'q' :: 'u' :: 'o' :: 't' :: ';' :: l2) ∨
      (Char.ofNat 39 = r ∧ l = '#' :: '3' :: '9' :: ';' :: l2) := by
  constructor
  · intro h
    unfold entityAt at h
    split at h <;> simp_all <;> exact h.1
  · rintro (⟨rfl, rfl⟩ | ⟨rfl, rfl⟩ | ⟨rfl, rfl⟩ | ⟨rfl, rfl⟩ | ⟨rfl, rfl⟩) <;> rfl

theorem append_nl_decomp (p l m : List Char) (hp : p.getLast? ≠ some '\n')
    (h : l ++ ['\n'] = p ++ m) : ∃ m2, l = p ++ m2 ∧ m = m2 ++ ['\n'] := by
  rcases m.eq_nil_or_concat with rfl | ⟨m2, c, rfl⟩
  · exfalso
    apply hp
    simp only [List.append_nil] at h
    rw [← h, List.getLast?_concat]
  · rw [List.concat_eq_append] at h
    have hlen : l.length = (p ++ m2).length := by
      have hc := congrArg List.length h
      simp only [List.length_append, List.length_cons, List.length_nil] at hc
      simp only [List.length_append]
      omega
    obtain ⟨h1, h2⟩ := List.append_inj (by rw [h, List.append_assoc]) hlen
    have hc2 : c = '\n' := by simpa using h2.symm
    subst hc2
    exact ⟨m2, h1, by rw [List.concat_eq_append]⟩

theorem entityAt_append_newline (l : List Char) :
    entityAt (l ++ ['\n']) = (entityAt l).map (fun p => (p.1, p.2 ++ ['\n'])) := by
  cases he : entityAt l with
  | some p =>
    obtain ⟨r, l2⟩ := p
    rw [entityAt_eq_some] at he
    rcases he with ⟨rfl, rfl⟩ | ⟨rfl, rfl⟩ | ⟨rfl, rfl⟩ | ⟨rfl, rfl⟩ | ⟨rfl, rfl⟩ <;> rfl
  | none =>
    cases hx : entityAt (l ++ ['\n']) with
    | none => rfl
    | some p =>
      obtain ⟨r, l2⟩ := p
      rw [entityAt_eq_some] at hx
      exfalso
      rcases hx with ⟨hr, hl⟩ | ⟨hr, hl⟩ | ⟨hr, hl⟩ | ⟨hr, hl⟩ | ⟨hr, hl⟩
      · obtain ⟨m2, hm1, _⟩ := append_nl_decomp ['a', 'm', 'p', ';'] l l2
          (by decide) (by simpa using hl)
        have : entityAt l = some ('&', m2) := by rw [hm1]; rfl
        rw [he] at this
        exact Option.noConfusion this
      · obtain ⟨m2, hm1, _⟩ := append_nl_decomp ['l', 't', ';'] l l2
          (by decide) (by simpa using hl)
        have : entityAt l = some ('<', m2) := by rw [hm1]; rfl
        rw [he] at this
        exact Option.noConfusion this
      · obtain ⟨m2, hm1, _⟩ := append_nl_decomp ['g', 't', ';'] l l2
          (by decide) (by simpa using hl)
        have : entityAt l = some ('>', m2) := by rw [hm1]; rfl
        rw [he] at this
        exact Option.noConfusion this
      · obtain ⟨m2, hm1, _⟩ := append_nl_decomp ['q', 'u', 'o', 't', ';'] l l2
          (by decide) (by simpa using hl)
        have : entityAt l = some ('"', m2) := by rw [hm1]; rfl
        rw [he] at this
        exact Option.noConfusion this
      · obtain ⟨m2, hm1, _⟩ := append_nl_decomp ['#', '3', '9', ';'] l l2
          (by decide) (by simpa using hl)
        have : entityAt l = some (Char.ofNat 39, m2) := by rw [hm1]; rfl
        rw [he] at this
        exact Option.noConfusion this

theorem unescapeAux_append_newline (l : List Char) :
    unescapeAux (l ++ ['\n']) = unescapeAux l ++ ['\n'] := by
  induction l using unescapeAux.induct with
  | case1 => simp [unescapeAux]
  | case2 rest r rest2 he ih =>
    simp only [List.cons_append, unescapeAux, if_true]
    split
    · rename_i r2 rest3 h1
      rw [entityAt_append_newline, he] at h1
      simp only [Option.map_some', Option.some.injEq, Prod.mk.injEq] at h1
      obtain ⟨rfl, rfl⟩ := h1
      rw [ih]
      split
      · rename_i r3 rest4 h2
        rw [he] at h2
        simp only [Option.some.injEq, Prod.mk.injEq] at h2
        obtain ⟨rfl, rfl⟩ := h2
        rfl
      · rename_i h2
        rw [he] at h2
        exact Option.noConfusion h2
    · rename_i h1
      rw [entityAt_append_newline, he] at h1
      simp at h1
  | case3 rest he ih =>
    simp only [List.cons_append, unescapeAux, if_true]
    split
    · rename_i r2 rest3 h1
      rw [entityAt_append_newline, he] at h1
      simp at h1
    · rename_i h1
      rw [ih]
      split
      · rename_i r3 rest4 h2
        rw [he] at h2
        exact Option.noConfusion h2
      · rfl
  | case4 c rest hc ih =>
    simp only [List.cons_append, unescapeAux]
    rw [if_neg hc, if_neg hc, ih]
    rfl

theorem unescapeAux_ne_nil (c : Char) (rest : List Char) :
    unescapeAux (c :: rest) ≠ [] := by
  simp only [unescapeAux]
  split
  · split <;> simp
  · simp

theorem getLast?_cons_of_ne_nil {α : Type} (a : α) (l : List α) (h : l ≠ []) :
    (a :: l).getLast? = l.getLast? := by
  cases l with
  | nil => exact absurd rfl h
  | cons b m => exact List.getLast?_cons_cons

theorem entityAt_repl_ne_nl (l : List Char) (r : Char) (l2 : List Char)
    (h : entityAt l = some (r, l2)) : r ≠ '\n' := by
  rw [entityAt_eq_some] at h
  rcases h with ⟨rfl, _⟩ | ⟨rfl, _⟩ | ⟨rfl, _⟩ | ⟨rfl, _⟩ | ⟨rfl, _⟩ <;> decide

theorem unescapeAux_getLast_ne_nl (l : List Char) (h : l.getLast? ≠ some '\n') :
    (unescapeAux l).getLast? ≠ some '\n' := by
  induction l using unescapeAux.induct with
  | case1 =>
    simp only [unescapeAux]
    simp only [List.getLast?] at h
    exact h
  | case2 rest r rest2 he ih =>
    have hrew : unescapeAux ('&' :: rest) = r :: unescapeAux rest2 := by
      simp only [unescapeAux, if_true]
      split
      · rename_i r3 rest4 h2
        rw [he] at h2
        simp only [Option.some.injEq, Prod.mk.injEq] at h2
        obtain ⟨rfl, rfl⟩ := h2
        rfl
      · rename_i h2
        rw [he] at h2
        exact Option.noConfusion h2
    rw [hrew]
    have hr := entityAt_repl_ne_nl _ _ _ he
    cases hrest2 : rest2 with
    | nil =>
      subst hrest2
      simp [unescapeAux]
      exact hr
    | cons x xs =>
      subst hrest2
      rw [getLast?_cons_of_ne_nil r _ (unescapeAux_ne_nil x xs)]
      apply ih
      obtain hpat := (entityAt_eq_some rest r (x :: xs)).mp he
      intro hcon
      apply h
      rcases hpat with ⟨_, rfl⟩ | ⟨_, rfl⟩ | ⟨_, rfl⟩ | ⟨_, rfl⟩ | ⟨_, rfl⟩ <;>
        simp only [List.getLast?_cons_cons, hcon]
  | case3 rest he ih =>
    have hrew : unescapeAux ('&' :: rest) = '&' :: unescapeAux rest := by
      simp only [unescapeAux, if_true]
      split
      · rename_i r3 rest4 h2
        rw [he] at h2
        exact Option.noConfusion h2
      · rfl
    rw [hrew]
    cases hr : rest with
    | nil =>
      subst hr
      simp [unescapeAux]
    | cons x xs =>
      subst hr
      rw [getLast?_cons_of_ne_nil _ _ (unescapeAux_ne_nil x xs)]
      apply ih
      intro hcon
      apply h
      rw [getLast?_cons_of_ne_nil _ _ (by simp)]
      exact hcon
  | case4 c rest hc ih =>
    have hrew : unescapeAux (c :: rest) = c :: unescapeAux rest := by
      simp only [unescapeAux]
      rw [if_neg hc]
    rw [hrew]
    cases hr : rest with
    | nil =>
      subst hr
      simpa [unescapeAux] using h
    | cons x xs =>
      subst hr
      rw [getLast?_cons_of_ne_nil _ _ (unescapeAux_ne_nil x xs)]
      apply ih
      intro hcon
      apply h
      rw [getLast?_cons_of_ne_nil _ _ (by simp)]
      exact hcon

theorem head?_dropWhile_false {α : Type} (p : α → Bool) (l : List α) (c : α)
    (h : (l.dropWhile p).head? = some c) : p c = false := by
  induction l with
  | nil => simp [List.dropWhile] at h
  | cons a m ih =>
    rw [List.dropWhile_cons] at h
    split at h
    · exact ih h
    · rename_i hpa
      simp only [List.head?_cons, Option.some.injEq] at h
      subst h
      simpa using hpa

theorem trimRightChars_getLast (l : List Char) (c : Char)
    (h : (trimRightChars l).getLast? = some c) : c.isWhitespace = false := by
  rw [trimRightChars, List.getLast?_reverse] at h
  exact head?_dropWhile_false _ _ _ h

/-- Claim C8 (amended): render returns the renderer output trimmed on both
ends (the source uses a full trim, which also removes leading whitespace),
entity-unescaped, with exactly one line feed appended, so the produced text
always ends with exactly one line feed character, never zero and never more
than one. -/
theorem c8_amended (tokens : List Token) :
    render tokens = jsUnescape (jsTrim (mdRender tokens) ++ "\n") ∧
    endsWithExactlyOneNewline (render tokens) := by
  refine ⟨rfl, ?_⟩
  have hdata : (render tokens).data
      = unescapeAux ((jsTrim (mdRender tokens)).data ++ ['\n']) := by
    show unescapeAux ((jsTrim (mdRender tokens) ++ "\n").data) = _
    rw [strData_append]
  rw [endsWithExactlyOneNewline]
  refine ⟨unescapeAux (jsTrim (mdRender tokens)).data, ?_, ?_⟩
  · rw [hdata, unescapeAux_append_newline]
  · apply unescapeAux_getLast_ne_nl
    intro hcon
    have hws := trimRightChars_getLast (trimLeftChars (mdRender tokens).data) '\n' hcon
    simp at hws

/-- Claim C8 counterexample: on a token sequence whose rendered text starts
with a line feed, render also strips the leading whitespace, so its output
differs from the right-trim-only reading of the claim. -/
theorem c8_counterexample :
    render [Token.space, Token.text "x"] = "x\n" ∧
    renderClaimC8 [Token.space, Token.text "x"] = "\nx\n" ∧
    render [Token.space, Token.text "x"] ≠ renderClaimC8 [Token.space, Token.text "x"] := by
  have e0 : unescapeAux ([] : List Char) = [] := by simp only [unescapeAux]
  have e1 : unescapeAux ['\n'] = ['\n'] := by
    rw [unescapeAux, if_neg (by decide), e0]
  have e2 : unescapeAux ['x', '\n'] = ['x', '\n'] := by
    rw [unescapeAux, if_neg (by decide), e1]
  have e3 : unescapeAux ['\n', 'x', '\n'] = ['\n', 'x', '\n'] := by
    rw [unescapeAux, if_neg (by decide), e2]
  have hA : render [Token.space, Token.text "x"] = "x\n" := by
    apply String.ext
    show unescapeAux ['x', '\n'] = ['x', '\n']
    exact e2
  have hB : renderClaimC8 [Token.space, Token.text "x"] = "\nx\n" := by
    apply String.ext
    show unescapeAux ['\n', 'x', '\n'] = ['\n', 'x', '\n']
    exact e3
  refine ⟨hA, hB, ?_⟩
  rw [hA, hB]
  decide

theorem strJoinSep_head (sep : String) (x : String) (xs : List String) (c : Char)
    (l : List Char) (hx : x.data = c :: l) :
    ∃ m, (strJoinSep sep (x :: xs)).data = c :: m := by
  cases xs with
  | nil => exact ⟨l, hx⟩
  | cons y ys =>
    refine ⟨l ++ (sep.data ++ (strJoinSep sep (y :: ys)).data), ?_⟩
    simp only [strJoinSep, strData_append, hx, List.cons_append, List.append_assoc]

theorem strJoinSep_last (sep : String) (c : Char) :
    ∀ (xs : List String) (x : String),
      (∀ z ∈ x :: xs, ∃ m, z.data = m ++ [c]) →
      ∃ m, (strJoinSep sep (x :: xs)).data = m ++ [c]
  | [], x, h => h x (by simp)
  | y :: ys, x, h => by
    obtain ⟨m, hm⟩ := strJoinSep_last sep c ys y (fun z hz => h z (by
      simp only [List.mem_cons] at hz ⊢
      tauto))
    refine ⟨x.data ++ (sep.data ++ m), ?_⟩
    simp only [strJoinSep, strData_append, hm, List.append_assoc]

theorem prLink_head (n : Nat) : ∃ l, (prLink n).data = '[' :: l :=
  ⟨_, rfl⟩

theorem prLink_last (n : Nat) : ∃ m, (prLink n).data = m ++ [')'] := by
  have h : (prLink n).data
      = ((("[#".data ++ (toString n).data) ++
          "](https://github.com/expo/expo/pull/".data) ++ (toString n).data) ++ [')'] := rfl
  exact ⟨_, h⟩

theorem authorLink_head (a : String) : ∃ l, (authorLink a).data = '[' :: l :=
  ⟨_, rfl⟩

theorem authorLink_last (a : String) : ∃ m, (authorLink a).data = m ++ [')'] := by
  have h : (authorLink a).data
      = ((("[@".data ++ a.data) ++ "](https://github.com/".data) ++ a.data) ++ [')'] := rfl
  exact ⟨_, h⟩

theorem jsTrim_of_shape (s : String) (a : Char) (l : List Char)
    (ha : a.isWhitespace = false) (hs : s.data = a :: l)
    (b : Char) (m : List Char) (hb : b.isWhitespace = false)
    (hs2 : s.data = m ++ [b]) : jsTrim s = s := by
  apply String.ext
  show trimRightChars (trimLeftChars s.data) = s.data
  have h1 : trimLeftChars s.data = s.data := by
    rw [hs, trimLeftChars, List.dropWhile_cons_of_neg (by simp [ha])]
  rw [h1, hs2, trimRightChars]
  rw [show ((m ++ [b]).reverse) = b :: m.reverse by simp]
  rw [List.dropWhile_cons_of_neg (by simp [hb])]
  simp

theorem jsTrim_append_by_end (s : String) (a : Char) (l : List Char)
    (ha : a.isWhitespace = false) (hs : s.data = a :: l) :
    jsTrim (s ++ " by ") = s ++ " by" := by
  apply String.ext
  show trimRightChars (trimLeftChars (s ++ " by ").data) = (s ++ " by").data
  rw [strData_append, strData_append, hs]
  rw [show (" by ").data = [' ', 'b', 'y', ' '] from rfl]
  rw [show (" by").data = [' ', 'b', 'y'] from rfl]
  rw [trimLeftChars, List.cons_append, List.dropWhile_cons_of_neg (by simp [ha])]
  rw [trimRightChars]
  rw [show ((a :: (l ++ [' ', 'b', 'y', ' '])).reverse)
      = ' ' :: 'y' :: 'b' :: ' ' :: (l.reverse ++ [a]) by simp]
  rw [List.dropWhile_cons_of_pos (by decide)]
  rw [List.dropWhile_cons_of_neg (by decide)]
  simp

theorem jsTrim_by_start (s : String) (b : Char) (m : List Char)
    (hb : b.isWhitespace = false) (hs : s.data = m ++ [b]) :
    jsTrim (" by " ++ s) = "by " ++ s := by
  apply String.ext
  show trimRightChars (trimLeftChars (" by " ++ s).data) = ("by " ++ s).data
  rw [strData_append, strData_append]
  rw [show (" by ").data = [' ', 'b', 'y', ' '] from rfl]
  rw [show ("by ").data = ['b', 'y', ' '] from rfl]
  rw [trimLeftChars]
  rw [show ([' ', 'b', 'y', ' '] ++ s.data) = ' ' :: ('b' :: 'y' :: ' ' :: s.data) from rfl]
  rw [List.dropWhile_cons_of_pos (by decide), List.dropWhile_cons_of_neg (by decide)]
  rw [hs, trimRightChars]
  rw [show (('b' :: 'y' :: ' ' :: (m ++ [b])).reverse)
      = b :: (m.reverse ++ [' ', 'y', 'b']) by simp]
  rw [List.dropWhile_cons_of_neg (by simp [hb])]
  simp

/-- Claim C7 (confirmed): the entry label is the bare message when there are
no pull requests and no authors, and otherwise the message followed by one
parenthesized suffix holding the comma-joined pull request links, the word by,
and the comma-joined author links, including the cases with only pull
requests (dangling by) or only authors (leading by). -/
theorem c7_entryLabel (msg : String) (oprs : Option (List Nat))
    (oauths : Option (List String)) :
    getChangeEntryLabel ⟨msg, oprs, oauths⟩ =
      match oprs.getD [], oauths.getD [] with
      | [], [] => msg
      | p :: ps, [] =>
          msg ++ " (" ++ (strJoinSep ", " (prLink p :: ps.map prLink) ++ " by") ++ ")"
      | [], a :: as2 =>
          msg ++ " (" ++ ("by " ++ strJoinSep ", " (authorLink a :: as2.map authorLink)) ++ ")"
      | p :: ps, a :: as2 =>
          msg ++ " (" ++ (strJoinSep ", " (prLink p :: ps.map prLink) ++ " by " ++
            strJoinSep ", " (authorLink a :: as2.map authorLink)) ++ ")" := by
  cases hp : oprs.getD [] with
  | nil =>
    cases ha2 : oauths.getD [] with
    | nil => simp [getChangeEntryLabel, hp, ha2]
    | cons a as2 =>
      obtain ⟨m2, hm2⟩ := strJoinSep_last ", " ')' (as2.map authorLink) (authorLink a)
        (by
          intro z hz
          simp only [List.mem_cons, List.mem_map] at hz
          rcases hz with rfl | ⟨w, _, rfl⟩ <;> exact authorLink_last _)
      simp only [getChangeEntryLabel, hp, ha2, List.map_cons, List.map_nil,
        List.length_nil, List.length_cons, strJoinSep]
      rw [if_pos (by omega)]
      rw [show (("" : String) ++ " by " ++
          strJoinSep ", " (authorLink a :: as2.map authorLink))
        = " by " ++ strJoinSep ", " (authorLink a :: as2.map authorLink) from rfl]
      rw [jsTrim_by_start _ ')' m2 (by decide) hm2]
  | cons p ps =>
    obtain ⟨l0, hl0⟩ := prLink_head p
    obtain ⟨m1, hm1⟩ := strJoinSep_head ", " (prLink p) (ps.map prLink) '[' l0 hl0
    cases ha2 : oauths.getD [] with
    | nil =>
      simp only [getChangeEntryLabel, hp, ha2, List.map_cons, List.map_nil,
        List.length_nil, List.length_cons, strJoinSep]
      rw [if_pos (by omega)]
      have h0 : strJoinSep ", " (prLink p :: ps.map prLink) ++ " by " ++ ("" : String)
          = strJoinSep ", " (prLink p :: ps.map prLink) ++ " by " := by
        apply String.ext
        simp [strData_append]
      rw [h0]
      rw [jsTrim_append_by_end _ '[' m1 (by decide) hm1]
    | cons a as2 =>
      obtain ⟨m2, hm2⟩ := strJoinSep_last ", " ')' (as2.map authorLink) (authorLink a)
        (by
          intro z hz
          simp only [List.mem_cons, List.mem_map] at hz
          rcases hz with rfl | ⟨w, _, rfl⟩ <;> exact authorLink_last _)
      simp only [getChangeEntryLabel, hp, ha2, List.map_cons, List.map_nil,
        List.length_nil, List.length_cons, strJoinSep]
      rw [if_pos (by omega)]
      have hshape1 : (strJoinSep ", " (prLink p :: ps.map prLink) ++ " by " ++
          strJoinSep ", " (authorLink a :: as2.map authorLink)).data
          = '[' :: (m1 ++ (" by ".data ++
              (strJoinSep ", " (authorLink a :: as2.map authorLink)).data)) := by
        rw [strData_append, strData_append, hm1]
        simp [List.append_assoc]
      have hshape2 : (strJoinSep ", " (prLink p :: ps.map prLink) ++ " by " ++
          strJoinSep ", " (authorLink a :: as2.map authorLink)).data
          = ((strJoinSep ", " (prLink p :: ps.map prLink) ++ " by ").data ++ m2)
              ++ [')'] := by
        rw [strData_append, hm2]
        simp [List.append_assoc]
      rw [jsTrim_of_shape _ '[' _ (by decide) hshape1 ')' _ (by decide) hshape2]

end Changelogs
